import Mathlib

/-!
Verification of the HyperLogLog++ sketch of krakenhll (src/hyperloglogplus.cpp).

Machine integers are modelled as `Nat` with explicit `% 2^32` / `% 2^64`
where the C++ arithmetic can overflow or truncate.  The IEEE-754 `double`
arithmetic of `linearCounting` is idealised as real arithmetic (`Real.log`).
-/

/-! ## Bit utilities (hyperloglogplus.cpp, lines 54-131) -/

/-- Number of leading zeros of `x` regarded as a `w`-bit word, counting
down from the most significant bit.  `clzAux w x = w - (log2 x + 1)` for
`0 < x < 2^w`; used to model the compiler builtins `__builtin_clz` and
`__builtin_clzl`. -/
def clzAux : Nat → Nat → Nat
  | 0, _ => 0
  | w+1, x => if x < 2^w then 1 + clzAux w x else 0

/-- Model of `clz(const uint32_t x)`: 32 for 0, otherwise `__builtin_clz`. -/
def clz32 (x : Nat) : Nat := if x = 0 then 32 else clzAux 32 x

/-- Model of `clz(const uint64_t x)`: 64 for 0, otherwise `__builtin_clzl`. -/
def clz64 (x : Nat) : Nat := if x = 0 then 64 else clzAux 64 x

/-- Model of `extractBits<T>(value, hi, lo)` with `shift_left = false`:
mask out bits `hi-1 .. lo` and right-justify them. -/
def extractBits (value hi lo : Nat) : Nat :=
  (value &&& (((1 <<< (hi - lo)) - 1) <<< lo)) >>> lo

/-- Model of `extractHighBits(uint64_t bits, hi)`: `bits >> (64 - hi)`. -/
def extractHighBits64 (bits hi : Nat) : Nat := bits >>> (64 - hi)

/-- Model of `extractHighBits(uint32_t bits, hi)`: `bits >> (32 - hi)`. -/
def extractHighBits32 (bits hi : Nat) : Nat := bits >>> (32 - hi)

/-- Model of `getIndex(const uint64_t hash_value, p)`: top `p` bits. -/
def getIndex64 (hash_value p : Nat) : Nat := hash_value >>> (64 - p)

/-- Model of `getIndex(const uint32_t hash_value, p)`: top `p` bits. -/
def getIndex32 (hash_value p : Nat) : Nat := hash_value >>> (32 - p)

/-- Model of `trailingOnes<T>(p) = (T(1) << p) - 1`. -/
def trailingOnes (p : Nat) : Nat := (1 <<< p) - 1

/-- Model of `getRank(const uint32_t hash_value, p)`: shift `p` bits off,
OR in `p` trailing ones, count leading zeros of the 32-bit result, add 1. -/
def getRank32 (hash_value p : Nat) : Nat :=
  clz32 ((hash_value <<< p) % 2^32 ||| trailingOnes p) + 1

/-- Model of `getRank(const uint64_t hash_value, p)`. -/
def getRank64 (hash_value p : Nat) : Nat :=
  clz64 ((hash_value <<< p) % 2^64 ||| trailingOnes p) + 1

/-! ## Sparse representation (hyperloglogplus.cpp, lines 136-232)

The secondary precision `pPrime` is fixed at 25 by the class (see the
comment at line 202 of the source: "pPrime is 25") and the spec. -/

/-- Secondary (sparse) precision, fixed at 25. -/
def pPrime : Nat := 25

/-- Number of sparse bins, `2 ^ pPrime`. -/
def mPrime : Nat := 2^25

/-- Model of `getEncodedRank(encoded_hash_value, pP, p)`. -/
def getEncodedRank (encoded_hash_value pP p : Nat) : Nat :=
  if encoded_hash_value &&& 1 = 1 then
    (pP - p) + extractBits encoded_hash_value 7 1
  else
    getRank32 encoded_hash_value p

/-- Model of `encodeHashIn32Bit(hash_value, p, pP)`: pack the top `pP`
bits of the hash into bits 31..(32-pP); when the bits between positions
`p` and `pP` of that prefix are all zero, store `getRank(hash_value, pP)`
in bits 6..1 and set flag bit 0. -/
def encodeHashIn32Bit (hash_value p pP : Nat) : Nat :=
  let idx := (extractHighBits64 hash_value pP <<< (32 - pP)) % 2^32
  if (idx <<< p) % 2^32 = 0 then
    idx ||| (getRank64 hash_value pP <<< 1) ||| 1
  else
    idx

/-- Model of `addHashToSparseList(vector<uint32_t>& vec, val, pP)`.
`std::lower_bound` positions at the first element not less than `val`,
which for an ascending list is exactly what this recursion reaches after
skipping the elements `< val`. -/
def addHashToSparseList (vec : List Nat) (val : Nat) (pP : Nat) : List Nat :=
  match vec with
  | [] => [val]
  | x :: xs =>
    if x < val then x :: addHashToSparseList xs val pP
    else if x = val then x :: xs
    else if extractHighBits32 val pP = extractHighBits32 x pP then
      if x &&& 1 = val &&& 1 then
        if val &&& 1 = 1 then (if val > x then val :: xs else x :: xs)
        else (if val < x then val :: xs else x :: xs)
      else if val &&& 1 = 1 then val :: xs
      else x :: xs
    else val :: x :: xs

/-! ## The sketch object (hyperloglogplus.cpp, lines 458-608) -/

/-- State of a `HyperLogLogPlusMinus<uint64_t>` object: precision `p`,
mode flag `sparse`, the sparse list and the dense register vector `M`. -/
structure HLL where
  p : Nat
  sparse : Bool
  sparseList : List Nat
  M : List Nat
deriving DecidableEq, Repr

/-- Register index computed in `addToRegisters`: the source assigns
`getIndex(*encoded_hash_value_ptr, p)` (a `uint32_t`) to a `uint8_t idx`,
so the index is truncated to its low 8 bits. -/
def registerIdx (e p : Nat) : Nat := getIndex32 e p % 256

/-- Model of `HyperLogLogPlusMinus::addToRegisters(sparseList)`: drain a
sparse list into the register vector with max-update semantics. -/
def addToRegisters (M : List Nat) (sparseList : List Nat) (p : Nat) : List Nat :=
  sparseList.foldl (fun regs e =>
    let idx := registerIdx e p
    let rank_val := getEncodedRank e pPrime p
    if rank_val > regs.getD idx 0 then regs.set idx rank_val else regs) M

/-- Model of `switchToNormalRepresentation()`: allocate `2^p` zeroed
registers, drain the sparse list into them (when non-empty) and clear it. -/
def switchToNormalRepresentation (s : HLL) : HLL :=
  let M0 := List.replicate (2^s.p) 0
  { s with
    sparse := false
    M := if 0 < s.sparseList.length then addToRegisters M0 s.sparseList s.p else M0
    sparseList := if 0 < s.sparseList.length then [] else s.sparseList }

/-- Model of `HyperLogLogPlusMinus::add(uint64_t item)` after the mixer
has been applied, i.e. acting on the 64-bit hash value. -/
def addHash (s : HLL) (hash_value : Nat) : HLL :=
  if s.sparse then
    let encoded_hash_value := encodeHashIn32Bit hash_value s.p pPrime
    let s1 := { s with sparseList := addHashToSparseList s.sparseList encoded_hash_value pPrime }
    if s1.sparseList.length > 2^s1.p / 4 then switchToNormalRepresentation s1 else s1
  else
    let idx := getIndex64 hash_value s.p
    let rank := getRank64 hash_value s.p
    if rank > s.M.getD idx 0 then { s with M := s.M.set idx rank } else s

/-- Model of `HyperLogLogPlusMinus::add(uint64_t item)`: apply the 64-bit
mixer (its return type truncates to `uint64_t`) and insert the hash. -/
def add (bit_mixer : Nat → Nat) (s : HLL) (item : Nat) : HLL :=
  addHash s (bit_mixer item % 2^64)

/-- Model of the register-max loop in the dense-dense merge case:
`for i < other.M.size(): if (other.M[i] > M[i]) M[i] = other.M[i]`. -/
def maxMergeRegisters (A B : List Nat) : List Nat :=
  (List.range B.length).foldl
    (fun M i => if B.getD i 0 > M.getD i 0 then M.set i (B.getD i 0) else M) A

/-- Model of `HyperLogLogPlusMinus::add(const HyperLogLogPlusMinus* other)`
after the equal-precision check has passed. -/
def mergeOk (a other : HLL) : HLL :=
  if a.sparse && other.sparse then
    if a.sparseList.length + other.sparseList.length > 2^a.p then
      let a1 := switchToNormalRepresentation a
      { a1 with M := addToRegisters a1.M other.sparseList a1.p }
    else
      { a with sparseList :=
          other.sparseList.foldl (fun l v => addHashToSparseList l v pPrime) a.sparseList }
  else if other.sparse then
    { a with M := addToRegisters a.M other.sparseList a.p }
  else
    let a1 := if a.sparse then switchToNormalRepresentation a else a
    { a1 with M := maxMergeRegisters a1.M other.M }

/-- Model of `HyperLogLogPlusMinus::add(const HyperLogLogPlusMinus* other)`:
merging sketches of unequal precision throws before anything is touched. -/
def merge (a other : HLL) : Except String HLL :=
  if a.p ≠ other.p then .error "precisions must be equal" else .ok (mergeOk a other)

/-- Model of the constructor `HyperLogLogPlusMinus(precision, sparse, bit_mixer)`:
a precision outside [4, 18] throws, so no object state is established. -/
def construct (precision : Nat) (sparse : Bool) : Except String HLL :=
  if precision > 18 || precision < 4 then
    .error "precision (number of register = 2^precision) must be between 4 and 18"
  else if sparse then
    .ok { p := precision, sparse := true, sparseList := [], M := [] }
  else
    .ok { p := precision, sparse := false, sparseList := [], M := List.replicate (2^precision) 0 }

/-- A freshly constructed sparse sketch of the given precision. -/
def emptySketch (precision : Nat) : HLL :=
  { p := precision, sparse := true, sparseList := [], M := [] }

/-- Sketch obtained by adding `items` (through `bit_mixer`) one by one to
a freshly constructed sparse sketch. -/
def build (precision : Nat) (bit_mixer : Nat → Nat) (items : List Nat) : HLL :=
  items.foldl (add bit_mixer) (emptySketch precision)

/-- Force a sketch into the dense representation, as done before comparing
register arrays: switch if it is still sparse. -/
def forceDense (s : HLL) : HLL :=
  if s.sparse then switchToNormalRepresentation s else s

/-! ## Cardinality estimation, sparse branch (hyperloglogplus.cpp, lines
262-267 and 609-615).  The C++ `double` computation is idealised as real
arithmetic. -/

/-- Model of `linearCounting(m, v)`: throws when `v > m`, otherwise
returns `m * log(m / v)`. -/
noncomputable def linearCounting (m v : Nat) : Except String Real :=
  if v > m then .error "number of v should not be greater than m"
  else .ok ((m : Real) * Real.log ((m : Real) / (v : Real)))

/-- Sparse branch of `heuleCardinality()` (which `cardinality()` returns):
`uint64_t(linearCounting(mPrime, mPrime - sparseList.size()))`.  The
`uint64_t` cast truncates toward zero, and the value is nonnegative, so it
is the floor.  The dense branch (bias tables in the header) is not needed
by any claim about sparse sketches. -/
noncomputable def heuleCardinalitySparse (s : HLL) : Except String Int :=
  (linearCounting mPrime (mPrime - s.sparseList.length)).map (fun est => ⌊est⌋)

/-! ## Helper lemmas: bit arithmetic -/

/-- clzAux computes `w - (log2 x + 1)` on nonzero `w`-bit inputs. -/
lemma clzAux_eq (w : Nat) : ∀ x : Nat, x ≠ 0 → x < 2^w → clzAux w x = w - (Nat.log2 x + 1) := by
  induction w with
  | zero => intro x hx hw; omega
  | succ w ih =>
    intro x hx hw
    rw [clzAux]
    by_cases hlt : x < 2^w
    · rw [if_pos hlt, ih x hx hlt]
      have hlog : Nat.log2 x < w := (Nat.log2_lt hx).mpr hlt
      omega
    · rw [if_neg hlt]
      have h1 : Nat.log2 x < w + 1 := (Nat.log2_lt hx).mpr hw
      have h2 : w ≤ Nat.log2 x := (Nat.le_log2 hx).mpr (Nat.le_of_not_lt hlt)
      omega

/-- Base-2 logarithm of `a * 2^k + c` for `a ≠ 0` and `c < 2^k`. -/
lemma log2_mul_pow_add {a c k : Nat} (ha : a ≠ 0) (hc : c < 2^k) :
    Nat.log2 (a * 2^k + c) = Nat.log2 a + k := by
  have hx : a * 2^k + c ≠ 0 := by positivity
  have hlo : 2^(Nat.log2 a + k) ≤ a * 2^k + c := by
    rw [pow_add]
    have := Nat.log2_self_le ha
    calc 2^Nat.log2 a * 2^k ≤ a * 2^k := Nat.mul_le_mul_right _ this
    _ ≤ a * 2^k + c := Nat.le_add_right _ _
  have hhi : a * 2^k + c < 2^(Nat.log2 a + k + 1) := by
    have h1 : a * 2^k + c < (a + 1) * 2^k := by
      rw [add_mul, one_mul]; omega
    have h2 : a + 1 ≤ 2^(Nat.log2 a + 1) := Nat.lt_log2_self
    calc a * 2^k + c < (a + 1) * 2^k := h1
    _ ≤ 2^(Nat.log2 a + 1) * 2^k := Nat.mul_le_mul_right _ h2
    _ = 2^(Nat.log2 a + k + 1) := by rw [← pow_add]; ring_nf
  have hle : Nat.log2 a + k ≤ Nat.log2 (a * 2^k + c) := (Nat.le_log2 hx).mpr hlo
  have hlt : Nat.log2 (a * 2^k + c) < Nat.log2 a + k + 1 := (Nat.log2_lt hx).mpr hhi
  omega

/-- Bitwise OR acts as addition when the low `k` bits of the left operand
are clear and the right operand fits in `k` bits. -/
lemma lor_mul_pow_add {a c k : Nat} (hc : c < 2^k) : (a * 2^k) ||| c = a * 2^k + c := by
  apply Nat.eq_of_testBit_eq
  intro j
  rw [Nat.testBit_lor]
  rw [mul_comm a (2^k)]
  rw [Nat.testBit_mul_pow_two_add a hc j]
  have h0 : (2^k * a + 0 : Nat) = 2^k * a := by ring
  have := Nat.testBit_mul_pow_two_add a (b := 0) (i := k) (by positivity) j
  rw [h0] at this
  rw [this]
  by_cases hj : j < k
  · simp [hj]
  · have hcj : c < 2^j := lt_of_lt_of_le hc (Nat.pow_le_pow_right (by norm_num) (Nat.le_of_not_lt hj))
    simp [hj, Nat.testBit_lt_two_pow hcj]

/-- extractBits with hi = 7, lo = 1 keeps bits 6..1. -/
lemma extractBits_7_1 (x : Nat) : extractBits x 7 1 = x / 2 % 64 := by
  show (x &&& 126) >>> 1 = x / 2 % 64
  have h126 : x &&& 126 = 2 * (x / 2 % 64) := by
    have h63 : x / 2 % 64 = x / 2 &&& 63 := by
      have := Nat.and_pow_two_sub_one_eq_mod (x / 2) 6
      norm_num at this
      omega
    rw [h63]
    apply Nat.eq_of_testBit_eq
    intro j
    cases j with
    | zero =>
      rw [Nat.testBit_land]
      have : (126 : Nat).testBit 0 = false := by decide
      rw [this]
      have h2 : (2 * (x / 2 &&& 63) : Nat) = 2^1 * (x / 2 &&& 63) + 0 := by ring
      rw [h2, Nat.testBit_mul_pow_two_add _ (by norm_num) 0]
      simp
    | succ j =>
      rw [Nat.testBit_land]
      have h2 : (2 * (x / 2 &&& 63) : Nat) = 2^1 * (x / 2 &&& 63) + 0 := by ring
      rw [h2, Nat.testBit_mul_pow_two_add _ (by norm_num) (j+1)]
      have hj : ¬ (j + 1 < 1) := by omega
      simp only [if_neg hj]
      have h126' : (126 : Nat) = 2^1 * 63 + 0 := by norm_num
      rw [h126', Nat.testBit_mul_pow_two_add 63 (by norm_num) (j+1), if_neg hj]
      rw [Nat.testBit_succ, Nat.testBit_land]
      simp
  rw [h126, Nat.shiftRight_eq_div_pow]
  omega

/-! ## Helper lemmas: rank computation -/

lemma trailingOnes_eq (p : Nat) : trailingOnes p = 2^p - 1 := by
  simp [trailingOnes, Nat.shiftLeft_eq]

/-- The shifted-and-truncated hash with trailing ones, as plain arithmetic. -/
lemma rankBits_eq (h p w : Nat) (hp : p ≤ w) :
    (h <<< p) % 2^w ||| trailingOnes p = (h % 2^(w-p)) * 2^p + (2^p - 1) := by
  have hw : (2:Nat)^w = 2^(w-p) * 2^p := by rw [← pow_add]; congr 1; omega
  rw [Nat.shiftLeft_eq, trailingOnes_eq, hw, Nat.mul_mod_mul_right,
    lor_mul_pow_add (by have := Nat.two_pow_pos p; omega)]

lemma clz_core_zero (w p : Nat) (hp1 : 0 < p) (hpw : p ≤ w) : clzAux w (2^p - 1) = w - p := by
  have h2p : 1 < 2^p := Nat.one_lt_two_pow_iff.mpr (by omega)
  have hx : (2:Nat)^p - 1 ≠ 0 := by omega
  have h1 : 2^(p-1) ≤ 2^p - 1 := by
    have : (2:Nat)^(p-1) < 2^p := Nat.pow_lt_pow_right (by norm_num) (by omega)
    omega
  have hlog : Nat.log2 (2^p - 1) = p - 1 := by
    have hA := (Nat.le_log2 hx).mpr h1
    have hB := (Nat.log2_lt hx).mpr (show 2^p - 1 < 2^p by omega)
    omega
  have hlt : 2^p - 1 < 2^w := by
    have : (2:Nat)^p ≤ 2^w := Nat.pow_le_pow_right (by norm_num) hpw
    omega
  rw [clzAux_eq w _ hx hlt, hlog]
  omega

lemma clz_core_pos (w b p : Nat) (hpw : p ≤ w) (hb : b < 2^(w-p)) (hb0 : b ≠ 0) :
    clzAux w (b * 2^p + (2^p - 1)) = w - p - (Nat.log2 b + 1) := by
  have hpp := Nat.two_pow_pos p
  have hx : b * 2^p + (2^p - 1) ≠ 0 := by
    have : 0 < b * 2^p := Nat.mul_pos (by omega) hpp
    omega
  have hlog := log2_mul_pow_add hb0 (show 2^p - 1 < 2^p by omega)
  have hlt : b * 2^p + (2^p - 1) < 2^w := by
    have h1 : b * 2^p + (2^p - 1) < (b+1) * 2^p := by rw [add_mul, one_mul]; omega
    have h2 : (b+1) * 2^p ≤ 2^(w-p) * 2^p := Nat.mul_le_mul_right _ (by omega)
    have h3 : (2:Nat)^(w-p) * 2^p = 2^w := by rw [← pow_add]; congr 1; omega
    omega
  have hlogb : Nat.log2 b < w - p := (Nat.log2_lt hb0).mpr hb
  rw [clzAux_eq w _ hx hlt, hlog]
  omega

lemma getRank64_eq_zero {h p : Nat} (hp1 : 0 < p) (hp : p ≤ 64) (h0 : h % 2^(64-p) = 0) :
    getRank64 h p = 65 - p := by
  have h2p : 1 < 2^p := Nat.one_lt_two_pow_iff.mpr (by omega)
  rw [getRank64, rankBits_eq h p 64 hp, h0, zero_mul, zero_add, clz64,
    if_neg (by omega : ¬ ((2:Nat)^p - 1 = 0)), clz_core_zero 64 p hp1 hp]
  omega

lemma getRank64_eq_pos {h p : Nat} (hp : p ≤ 64) (h0 : h % 2^(64-p) ≠ 0) :
    getRank64 h p = 64 - p - Nat.log2 (h % 2^(64-p)) := by
  have hpp := Nat.two_pow_pos p
  have hb : h % 2^(64-p) < 2^(64-p) := Nat.mod_lt _ (Nat.two_pow_pos _)
  have hlogb : Nat.log2 (h % 2^(64-p)) < 64 - p := (Nat.log2_lt h0).mpr hb
  rw [getRank64, rankBits_eq h p 64 hp, clz64,
    if_neg (by
      have : 0 < (h % 2^(64-p)) * 2^p := Nat.mul_pos (by omega) hpp
      omega),
    clz_core_pos 64 _ p hp hb h0]
  omega

lemma getRank32_eq_zero {e p : Nat} (hp1 : 0 < p) (hp : p ≤ 32) (h0 : e % 2^(32-p) = 0) :
    getRank32 e p = 33 - p := by
  have h2p : 1 < 2^p := Nat.one_lt_two_pow_iff.mpr (by omega)
  rw [getRank32, rankBits_eq e p 32 hp, h0, zero_mul, zero_add, clz32,
    if_neg (by omega : ¬ ((2:Nat)^p - 1 = 0)), clz_core_zero 32 p hp1 hp]
  omega

lemma getRank32_eq_pos {e p : Nat} (hp : p ≤ 32) (h0 : e % 2^(32-p) ≠ 0) :
    getRank32 e p = 32 - p - Nat.log2 (e % 2^(32-p)) := by
  have hpp := Nat.two_pow_pos p
  have hb : e % 2^(32-p) < 2^(32-p) := Nat.mod_lt _ (Nat.two_pow_pos _)
  have hlogb : Nat.log2 (e % 2^(32-p)) < 32 - p := (Nat.log2_lt h0).mpr hb
  rw [getRank32, rankBits_eq e p 32 hp, clz32,
    if_neg (by
      have : 0 < (e % 2^(32-p)) * 2^p := Nat.mul_pos (by omega) hpp
      omega),
    clz_core_pos 32 _ p hp hb h0]
  omega

/-- The additional rank stored by the sparse encoding is between 1 and 40. -/
lemma getRank64_25_bounds (h : Nat) : 1 ≤ getRank64 h 25 ∧ getRank64 h 25 ≤ 40 := by
  by_cases h0 : h % 2^39 = 0
  · rw [show (39:Nat) = 64 - 25 from rfl] at h0
    rw [getRank64_eq_zero (by norm_num) (by norm_num) h0]
    omega
  · rw [show (39:Nat) = 64 - 25 from rfl] at h0
    rw [getRank64_eq_pos (by norm_num) h0]
    have hb : h % 2^(64-25) < 2^(64-25) := Nat.mod_lt _ (Nat.two_pow_pos _)
    have := (Nat.log2_lt h0).mpr hb
    omega

/-! ## Helper lemmas: the 32-bit encoding -/

/-- The top-25-bits prefix of a 64-bit hash is below `2^25`. -/
lemma top25_lt {h : Nat} (hh : h < 2^64) : h >>> 39 < 2^25 := by
  rw [Nat.shiftRight_eq_div_pow]
  exact Nat.div_lt_of_lt_mul (by norm_num at hh ⊢; omega)

/-- The `idx` local of `encodeHashIn32Bit` as plain arithmetic. -/
lemma encode_idx {h : Nat} (hh : h < 2^64) :
    (extractHighBits64 h 25 <<< (32 - 25)) % 2^32 = h >>> 39 * 2^7 := by
  have h39 : extractHighBits64 h 25 = h >>> 39 := rfl
  rw [h39, Nat.shiftLeft_eq]
  have ht := top25_lt hh
  have : h >>> 39 * 2^(32-25) < 2^32 := by
    calc h >>> 39 * 2^(32-25) < 2^25 * 2^(32-25) := by
          exact (Nat.mul_lt_mul_right (Nat.two_pow_pos _)).mpr ht
    _ = 2^32 := by norm_num
  rw [Nat.mod_eq_of_lt this]

/-- The flag test of `encodeHashIn32Bit` checks whether the bits of the
prefix below position `25 - p` vanish. -/
lemma encode_flag_cond {h p : Nat} (hp : p ≤ 25) :
    ((h >>> 39 * 2^7) <<< p) % 2^32 = (h >>> 39 % 2^(25-p)) * 2^(7+p) := by
  rw [Nat.shiftLeft_eq, mul_assoc, ← pow_add]
  have h32 : (2:Nat)^32 = 2^(25-p) * 2^(7+p) := by rw [← pow_add]; congr 1; omega
  rw [h32, Nat.mul_mod_mul_right]

lemma encodeHash_eq_flag0 {h p : Nat} (hh : h < 2^64) (hp : p ≤ 25)
    (ht : h >>> 39 % 2^(25-p) ≠ 0) :
    encodeHashIn32Bit h p 25 = h >>> 39 * 2^7 := by
  rw [encodeHashIn32Bit]
  simp only [encode_idx hh, encode_flag_cond hp]
  rw [if_neg]
  intro hc
  exact ht (by
    rcases Nat.mul_eq_zero.mp hc with h1 | h2
    · exact h1
    · exact absurd h2 (Nat.two_pow_pos _).ne')

lemma encodeHash_eq_flag1 {h p : Nat} (hh : h < 2^64) (hp : p ≤ 25)
    (ht : h >>> 39 % 2^(25-p) = 0) :
    encodeHashIn32Bit h p 25 = h >>> 39 * 2^7 + (2 * getRank64 h 25 + 1) := by
  have hr := getRank64_25_bounds h
  rw [encodeHashIn32Bit]
  simp only [encode_idx hh, encode_flag_cond hp]
  rw [if_pos (by rw [ht, zero_mul])]
  have hshift : getRank64 h 25 <<< 1 = 2 * getRank64 h 25 := by
    rw [Nat.shiftLeft_eq]; ring
  rw [hshift]
  have h1 : h >>> 39 * 2^7 ||| 2 * getRank64 h 25 = h >>> 39 * 2^7 + 2 * getRank64 h 25 :=
    lor_mul_pow_add (by omega)
  rw [h1]
  have h2 : h >>> 39 * 2^7 + 2 * getRank64 h 25 = (h >>> 39 * 2^6 + getRank64 h 25) * 2^1 := by
    ring
  rw [h2, lor_mul_pow_add (by norm_num)]
  ring

/-- Shape of a well-formed encoded hash for precision `p`: it is a 32-bit
value whose bits 31..7 hold the 25-bit prefix; either the flag bit is
clear (bits 6..0 all zero) and the prefix has a nonzero bit below
position `25 - p`, or the flag bit is set and bits 6..1 hold a rank
in [1, 40] while the low `25 - p` prefix bits vanish. -/
def ValidEnc (p e : Nat) : Prop :=
  e < 2^32 ∧
  ((e % 128 = 0 ∧ e >>> 7 % 2^(25-p) ≠ 0) ∨
   (e >>> 7 % 2^(25-p) = 0 ∧ ∃ r, 1 ≤ r ∧ r ≤ 40 ∧ e % 128 = 2*r + 1))

/-- Every value produced by `encodeHashIn32Bit` is a well-formed encoding. -/
lemma encode_valid {h p : Nat} (hh : h < 2^64) (hp : p ≤ 25) :
    ValidEnc p (encodeHashIn32Bit h p 25) := by
  have ht := top25_lt hh
  by_cases hflag : h >>> 39 % 2^(25-p) = 0
  · rw [encodeHash_eq_flag1 hh hp hflag]
    have hr := getRank64_25_bounds h
    constructor
    · have : h >>> 39 * 2^7 ≤ (2^25 - 1) * 2^7 := Nat.mul_le_mul_right _ (by omega)
      norm_num at this ⊢
      omega
    · right
      have hdiv : (h >>> 39 * 2^7 + (2 * getRank64 h 25 + 1)) >>> 7 = h >>> 39 := by
        rw [Nat.shiftRight_eq_div_pow]
        rw [Nat.mul_comm (h >>> 39) (2^7), Nat.mul_add_div (Nat.two_pow_pos 7)]
        norm_num
        omega
      rw [hdiv]
      refine ⟨hflag, getRank64 h 25, hr.1, hr.2, ?_⟩
      rw [Nat.mul_comm (h >>> 39) (2^7)]
      rw [show (2:Nat)^7 = 128 from rfl, Nat.mul_add_mod]
      omega
  · rw [encodeHash_eq_flag0 hh hp hflag]
    constructor
    · have : h >>> 39 * 2^7 ≤ (2^25 - 1) * 2^7 := Nat.mul_le_mul_right _ (by omega)
      norm_num at this ⊢
      omega
    · left
      have hdiv : (h >>> 39 * 2^7) >>> 7 = h >>> 39 := by
        rw [Nat.shiftRight_eq_div_pow]
        exact Nat.mul_div_cancel _ (Nat.two_pow_pos 7)
      rw [hdiv]
      exact ⟨by rw [show (128:Nat) = 2^7 from rfl]; exact Nat.mul_mod_left _ _, hflag⟩

/-! ## Helper lemmas: decoding -/

/-- Top `p` bits of an encoded value `t * 2^7 + c` (low byte `c < 2^7`). -/
lemma getIndex32_prefix_low {t c p : Nat} (hc : c < 2^7) (hp : p ≤ 25) :
    getIndex32 (t * 2^7 + c) p = t / 2^(25-p) := by
  rw [getIndex32, Nat.shiftRight_eq_div_pow]
  have h1 : (2:Nat)^(32-p) = 2^7 * 2^(25-p) := by rw [← pow_add]; congr 1; omega
  rw [h1, ← Nat.div_div_eq_div_mul]
  congr 1
  rw [Nat.mul_comm t (2^7), Nat.mul_add_div (Nat.two_pow_pos 7)]
  have : c / 2^7 = 0 := Nat.div_eq_of_lt hc
  omega

lemma getIndex64_eq {h p : Nat} (hp : p ≤ 25) : getIndex64 h p = h >>> 39 / 2^(25-p) := by
  rw [getIndex64, Nat.shiftRight_eq_div_pow, Nat.shiftRight_eq_div_pow,
    Nat.div_div_eq_div_mul]
  congr 1
  rw [← pow_add]
  congr 1
  omega

/-- Decoding the rank of a flagged encoding recovers the stored value. -/
lemma getEncodedRank_flag1 {e p : Nat} {r : Nat} (hr : r ≤ 40) (hmod : e % 128 = 2*r + 1) :
    getEncodedRank e 25 p = (25 - p) + r := by
  have hodd : e &&& 1 = 1 := by rw [Nat.and_one_is_mod]; omega
  rw [getEncodedRank, if_pos hodd, extractBits_7_1]
  have : e / 2 % 64 = r := by omega
  rw [this]

/-- Splitting a 64-bit value modulo `2^(64-p)` at bit 39. -/
lemma mod_64p_split {h p : Nat} (hp : p ≤ 25) :
    h % 2^(64-p) = (h >>> 39 % 2^(25-p)) * 2^39 + h % 2^39 := by
  have h1 : (2:Nat)^(64-p) = 2^39 * 2^(25-p) := by rw [← pow_add]; congr 1; omega
  rw [h1, Nat.mod_mul, Nat.shiftRight_eq_div_pow]
  ring

/-- Claim C3: for every 64-bit hash and precision p in [4,18] with
pPrime = 25, decoding the 32-bit encoding recovers index and rank:
`decode_index (encode h) = get_index h` and
`decode_rank (encode h) = get_rank h`. -/
theorem encode_decode_roundtrip (h p : Nat) (hh : h < 2^64) (hp4 : 4 ≤ p) (hp18 : p ≤ 18) :
    getIndex32 (encodeHashIn32Bit h p 25) p = getIndex64 h p ∧
    getEncodedRank (encodeHashIn32Bit h p 25) 25 p = getRank64 h p := by
  have hp25 : p ≤ 25 := by omega
  have ht := top25_lt hh
  by_cases hflag : h >>> 39 % 2^(25-p) = 0
  · rw [encodeHash_eq_flag1 hh hp25 hflag]
    have hr := getRank64_25_bounds h
    have hmod : (h >>> 39 * 2^7 + (2 * getRank64 h 25 + 1)) % 128 = 2 * getRank64 h 25 + 1 := by
      rw [Nat.mul_comm (h >>> 39) (2^7), show (2:Nat)^7 = 128 from rfl, Nat.mul_add_mod]
      omega
    have hsplit : h % 2^(64-p) = h % 2^39 := by
      rw [mod_64p_split hp25, hflag]
      ring
    constructor
    · rw [getIndex32_prefix_low (by omega) hp25, getIndex64_eq hp25]
    · rw [getEncodedRank_flag1 hr.2 hmod]
      by_cases h39 : h % 2^39 = 0
      · have hz : h % 2^(64-p) = 0 := by rw [hsplit]; exact h39
        rw [getRank64_eq_zero (by omega) (by omega) hz]
        have h25z : getRank64 h 25 = 65 - 25 := getRank64_eq_zero (by norm_num) (by norm_num) h39
        omega
      · have hnz : h % 2^(64-p) ≠ 0 := by rw [hsplit]; exact h39
        rw [getRank64_eq_pos (by omega) hnz]
        have h25p : getRank64 h 25 = 64 - 25 - Nat.log2 (h % 2^(64-25)) :=
          getRank64_eq_pos (by norm_num) h39
        have hlog : Nat.log2 (h % 2^39) < 39 :=
          (Nat.log2_lt h39).mpr (Nat.mod_lt _ (Nat.two_pow_pos _))
        rw [hsplit]
        rw [show (2:Nat)^(64-25) = 2^39 from rfl] at h25p
        omega
  · rw [encodeHash_eq_flag0 hh hp25 hflag]
    constructor
    · have := getIndex32_prefix_low (t := h >>> 39) (c := 0) (by norm_num) hp25
      rw [add_zero] at this
      rw [this, getIndex64_eq hp25]
    · have heven : (h >>> 39 * 2^7) &&& 1 = 0 := by
        rw [Nat.and_one_is_mod]
        omega
      rw [getEncodedRank, if_neg (by rw [heven]; norm_num)]
      have hu : (h >>> 39 * 2^7) % 2^(32-p) = (h >>> 39 % 2^(25-p)) * 2^7 := by
        have h2 : (2:Nat)^(32-p) = 2^(25-p) * 2^7 := by rw [← pow_add]; congr 1; omega
        rw [h2, Nat.mul_mod_mul_right]
      have hune : (h >>> 39 % 2^(25-p)) * 2^7 ≠ 0 :=
        Nat.mul_ne_zero hflag (Nat.two_pow_pos _).ne'
      rw [getRank32_eq_pos (by omega) (by rw [hu]; exact hune), hu]
      have hlog1 : Nat.log2 ((h >>> 39 % 2^(25-p)) * 2^7) =
          Nat.log2 (h >>> 39 % 2^(25-p)) + 7 := by
        have := log2_mul_pow_add (a := h >>> 39 % 2^(25-p)) (c := 0) (k := 7) hflag (by norm_num)
        rw [add_zero] at this
        exact this
      have hsplit := mod_64p_split (h := h) hp25
      have hnz : h % 2^(64-p) ≠ 0 := by
        rw [hsplit]
        have : 0 < (h >>> 39 % 2^(25-p)) * 2^39 :=
          Nat.mul_pos (Nat.pos_of_ne_zero hflag) (Nat.two_pow_pos _)
        omega
      rw [getRank64_eq_pos (by omega) hnz]
      have hlog2 : Nat.log2 (h % 2^(64-p)) = Nat.log2 (h >>> 39 % 2^(25-p)) + 39 := by
        rw [hsplit]
        exact log2_mul_pow_add hflag (Nat.mod_lt _ (Nat.two_pow_pos _))
      have hub : Nat.log2 (h >>> 39 % 2^(25-p)) < 25 - p :=
        (Nat.log2_lt hflag).mpr (Nat.mod_lt _ (Nat.two_pow_pos _))
      omega

/-- Witness for C3 at a concrete hash and precision. -/
theorem encode_decode_roundtrip_witness :
    getIndex32 (encodeHashIn32Bit 987654321 12 25) 12 = getIndex64 987654321 12 ∧
    getEncodedRank (encodeHashIn32Bit 987654321 12 25) 25 12 = getRank64 987654321 12 :=
  encode_decode_roundtrip 987654321 12 (by norm_num) (by norm_num) (by norm_num)

/-! ## Claims C7 and C8: construction and contract errors -/

/-- Claim C7: construction succeeds for every precision in [4,18] and
fails for every precision outside it; a failing construction returns only
an error, establishing no sketch state. -/
theorem construct_validity (precision : Nat) (sparse : Bool) :
    ((∃ s, construct precision sparse = Except.ok s) ↔ (4 ≤ precision ∧ precision ≤ 18)) ∧
    (precision < 4 ∨ 18 < precision →
      construct precision sparse =
        Except.error "precision (number of register = 2^precision) must be between 4 and 18") := by
  constructor
  · constructor
    · rintro ⟨s, hs⟩
      by_contra hcon
      have hc : (precision > 18 || precision < 4) = true := by
        simp only [Bool.or_eq_true, decide_eq_true_eq]
        omega
      rw [construct, if_pos hc] at hs
      simp at hs
    · intro hrange
      have hc : ¬ ((precision > 18 || precision < 4) = true) := by
        simp only [Bool.or_eq_true, decide_eq_true_eq]
        omega
      cases sparse
      · refine ⟨{ p := precision, sparse := false, sparseList := [], M := List.replicate (2^precision) 0 }, ?_⟩
        rw [construct, if_neg hc]
        simp
      · refine ⟨{ p := precision, sparse := true, sparseList := [], M := [] }, ?_⟩
        rw [construct, if_neg hc]
        simp
  · intro hout
    have hc : (precision > 18 || precision < 4) = true := by
      simp only [Bool.or_eq_true, decide_eq_true_eq]
      omega
    rw [construct, if_pos hc]

/-- Witness for C7 at the boundary precisions 18 and 19. -/
theorem construct_validity_witness :
    (∃ s, construct 18 true = Except.ok s) ∧
    construct 19 true =
      Except.error "precision (number of register = 2^precision) must be between 4 and 18" :=
  ⟨(construct_validity 18 true).1.mpr (by norm_num),
   (construct_validity 19 true).2 (by norm_num)⟩

/-- Claim C8: merging sketches of unequal precision fails with an error
and returns no merged sketch (the functional model mutates nothing), and
`linearCounting` errors exactly when `v > m`, otherwise returning
`m * log (m / v)`. -/
theorem contract_errors :
    (∀ a other : HLL, a.p ≠ other.p →
      merge a other = Except.error "precisions must be equal") ∧
    (∀ m v : Nat, v > m →
      linearCounting m v = Except.error "number of v should not be greater than m") ∧
    (∀ m v : Nat, v ≤ m →
      linearCounting m v = Except.ok ((m : Real) * Real.log ((m : Real) / (v : Real)))) := by
  refine ⟨?_, ?_, ?_⟩
  · intro a other hne
    rw [merge, if_pos hne]
  · intro m v h
    rw [linearCounting, if_pos h]
  · intro m v h
    rw [linearCounting, if_neg (by omega)]

/-- Witness for C8: a concrete unequal-precision merge and concrete
linearCounting calls on both sides of the guard. -/
theorem contract_errors_witness :
    merge (emptySketch 4) (emptySketch 5) = Except.error "precisions must be equal" ∧
    linearCounting 4 5 = Except.error "number of v should not be greater than m" ∧
    linearCounting 4 2 = Except.ok (((4:Nat) : Real) * Real.log (((4:Nat) : Real) / ((2:Nat) : Real))) :=
  ⟨contract_errors.1 _ _ (by decide), contract_errors.2.1 4 5 (by norm_num),
   contract_errors.2.2 4 2 (by norm_num)⟩

/-! ## Helper lemmas: register vectors -/

lemma getD_set_self {l : List Nat} {i : Nat} {a : Nat} (h : i < l.length) :
    (l.set i a).getD i 0 = a := by
  rw [List.getD_eq_getElem?_getD, List.getElem?_set, if_pos rfl, if_pos h]
  rfl

lemma getD_set_ne {l : List Nat} {i j : Nat} {a : Nat} (h : i ≠ j) :
    (l.set i a).getD j 0 = l.getD j 0 := by
  rw [List.getD_eq_getElem?_getD, List.getElem?_set, if_neg h, ← List.getD_eq_getElem?_getD]

/-- The truncated index used in `addToRegisters` is always in bounds:
for p at most 8 the untruncated index is below `2^p` and survives the
`uint8_t` conversion, and for larger p the truncated value is below 256. -/
lemma registerIdx_lt {e p : Nat} (he : e < 2^32) : registerIdx e p < 2^p := by
  rw [registerIdx, getIndex32, Nat.shiftRight_eq_div_pow]
  by_cases hp : p ≤ 8
  · have h1 : e / 2^(32-p) < 2^p := by
      apply Nat.div_lt_of_lt_mul
      have : (2:Nat)^(32-p) * 2^p = 2^32 := by rw [← pow_add]; congr 1; omega
      omega
    have h2 : (2:Nat)^p ≤ 256 := by
      calc (2:Nat)^p ≤ 2^8 := Nat.pow_le_pow_right (by norm_num) hp
      _ = 256 := by norm_num
    rw [Nat.mod_eq_of_lt (by omega)]
    exact h1
  · have h1 : e / 2^(32-p) % 256 < 256 := Nat.mod_lt _ (by norm_num)
    have h2 : (256:Nat) ≤ 2^p := by
      calc (256:Nat) = 2^8 := by norm_num
      _ ≤ 2^p := Nat.pow_le_pow_right (by norm_num) (by omega)
    omega

lemma addToRegisters_nil (M : List Nat) (p : Nat) : addToRegisters M [] p = M := rfl

lemma addToRegisters_cons (M : List Nat) (e : Nat) (t : List Nat) (p : Nat) :
    addToRegisters M (e :: t) p =
      addToRegisters
        (if getEncodedRank e pPrime p > M.getD (registerIdx e p) 0
         then M.set (registerIdx e p) (getEncodedRank e pPrime p) else M) t p := rfl

lemma addToRegisters_length (t : List Nat) (p : Nat) :
    ∀ M : List Nat, (addToRegisters M t p).length = M.length := by
  induction t with
  | nil => intro M; rfl
  | cons e t ih =>
    intro M
    rw [addToRegisters_cons, ih]
    by_cases hc : getEncodedRank e pPrime p > M.getD (registerIdx e p) 0
    · rw [if_pos hc, List.length_set]
    · rw [if_neg hc]

/-- Claim C9: for every precision in [4,18] and every 32-bit encoded
entry, the register index computed in `addToRegisters` is strictly below
the dense array length `2^p`, so the in-bounds assertion holds; and the
register writes never change the array length. -/
theorem addToRegisters_index_in_bounds (p : Nat) (M sparseList : List Nat)
    (hp4 : 4 ≤ p) (hp18 : p ≤ 18) (hM : M.length = 2^p)
    (hl : ∀ e ∈ sparseList, e < 2^32) :
    (∀ e ∈ sparseList, registerIdx e p < M.length) ∧
    (addToRegisters M sparseList p).length = M.length :=
  ⟨fun e he => hM ▸ registerIdx_lt (hl e he), addToRegisters_length sparseList p M⟩

/-- Witness for C9: a concrete drain at precision 9. -/
theorem addToRegisters_index_in_bounds_witness :
    (∀ e ∈ [2^31 + 128], registerIdx e 9 < (List.replicate 512 0).length) ∧
    (addToRegisters (List.replicate 512 0) [2^31 + 128] 9).length =
      (List.replicate 512 0).length :=
  addToRegisters_index_in_bounds 9 (List.replicate 512 0) [2^31 + 128]
    (by norm_num) (by norm_num) (by rw [List.length_replicate]; norm_num)
    (by intro e he; simp at he; subst he; norm_num)

/-! ## Claim C1: the uint8_t truncation in addToRegisters -/

/-- Claim C1 fails on the code: `addToRegisters` stores the register
index in a `uint8_t`, so for p = 9 the encoded entry for the hash
`2^63 + 2^39` (decode_index 256) updates register 256 % 256 = 0 instead
of register 256, which stays 0.  This theorem evaluates the code at that
failing input. -/
theorem addToRegisters_truncates_index :
    encodeHashIn32Bit (2^63 + 2^39) 9 25 = 2^31 + 128 ∧
    getIndex32 (2^31 + 128) 9 = 256 ∧
    getEncodedRank (2^31 + 128) 25 9 = 16 ∧
    registerIdx (2^31 + 128) 9 = 0 ∧
    (addToRegisters (List.replicate 512 0) [2^31 + 128] 9).getD 256 0 = 0 ∧
    (addToRegisters (List.replicate 512 0) [2^31 + 128] 9).getD 0 0 = 16 := by
  decide

/-! ## Claim C10: dense-mode operations are monotone on the registers -/

lemma getD_le_set {M : List Nat} {j a : Nat} (h : M.getD j 0 ≤ a) (i : Nat) :
    M.getD i 0 ≤ (M.set j a).getD i 0 := by
  by_cases hij : j = i
  · subst hij
    by_cases hl : j < M.length
    · rw [getD_set_self hl]; exact h
    · rw [List.set_eq_of_length_le (Nat.le_of_not_lt hl)]
  · rw [getD_set_ne hij]

lemma addToRegisters_mono (t : List Nat) (p : Nat) :
    ∀ (M : List Nat) (i : Nat), M.getD i 0 ≤ (addToRegisters M t p).getD i 0 := by
  induction t with
  | nil => intro M i; exact Nat.le_refl _
  | cons e t ih =>
    intro M i
    rw [addToRegisters_cons]
    by_cases hc : getEncodedRank e pPrime p > M.getD (registerIdx e p) 0
    · rw [if_pos hc]
      exact Nat.le_trans (getD_le_set (Nat.le_of_lt hc) i) (ih _ i)
    · rw [if_neg hc]
      exact ih _ i

lemma mergeLoop_mono (B : List Nat) (L : List Nat) :
    ∀ (A : List Nat) (i : Nat),
      A.getD i 0 ≤
        (L.foldl (fun M j => if B.getD j 0 > M.getD j 0 then M.set j (B.getD j 0) else M) A).getD i 0 := by
  induction L with
  | nil => intro A i; exact Nat.le_refl _
  | cons j L ih =>
    intro A i
    rw [List.foldl_cons]
    by_cases hc : B.getD j 0 > A.getD j 0
    · rw [if_pos hc]
      exact Nat.le_trans (getD_le_set (Nat.le_of_lt hc) i) (ih _ i)
    · rw [if_neg hc]
      exact ih _ i

lemma maxMergeRegisters_mono (A B : List Nat) (i : Nat) :
    A.getD i 0 ≤ (maxMergeRegisters A B).getD i 0 :=
  mergeLoop_mono B (List.range B.length) A i

/-- Claim C10: once a sketch is dense, adding an item, merging in a
sketch of the same precision, and draining a sparse list into the
registers never decrease any register. -/
theorem dense_registers_monotone (s : HLL) (hs : s.sparse = false) :
    (∀ (bit_mixer : Nat → Nat) (item : Nat) (i : Nat),
      s.M.getD i 0 ≤ (add bit_mixer s item).M.getD i 0) ∧
    (∀ other : HLL, other.p = s.p → ∀ i : Nat,
      s.M.getD i 0 ≤ (mergeOk s other).M.getD i 0) ∧
    (∀ (sparseList : List Nat) (i : Nat),
      s.M.getD i 0 ≤ (addToRegisters s.M sparseList s.p).getD i 0) := by
  have hns : ¬ (s.sparse = true) := by rw [hs]; simp
  refine ⟨?_, ?_, ?_⟩
  · intro bit_mixer item i
    rw [add, addHash, if_neg hns]
    by_cases hc : getRank64 (bit_mixer item % 2^64) s.p >
        s.M.getD (getIndex64 (bit_mixer item % 2^64) s.p) 0
    · simp only [if_pos hc]
      exact getD_le_set (Nat.le_of_lt hc) i
    · simp only [if_neg hc]
      exact Nat.le_refl _
  · intro other _ i
    rw [mergeOk]
    have hand : (s.sparse && other.sparse) = false := by rw [hs]; simp
    rw [hand]
    simp only [Bool.false_eq_true, if_false]
    by_cases ho : other.sparse = true
    · rw [if_pos ho]
      exact addToRegisters_mono other.sparseList s.p s.M i
    · rw [if_neg ho, if_neg hns]
      exact maxMergeRegisters_mono s.M other.M i
  · intro sparseList i
    exact addToRegisters_mono sparseList s.p s.M i

/-- Witness for C10 on a concrete dense sketch. -/
theorem dense_registers_monotone_witness :
    (HLL.mk 4 false [] (List.replicate 16 0)).M.getD 3 0 ≤
      (add (fun x => x) (HLL.mk 4 false [] (List.replicate 16 0)) 7).M.getD 3 0 ∧
    (HLL.mk 4 false [] (List.replicate 16 0)).M.getD 3 0 ≤
      (mergeOk (HLL.mk 4 false [] (List.replicate 16 0))
        (HLL.mk 4 true [128] [])).M.getD 3 0 ∧
    (HLL.mk 4 false [] (List.replicate 16 0)).M.getD 3 0 ≤
      (addToRegisters (HLL.mk 4 false [] (List.replicate 16 0)).M [128] 4).getD 3 0 := by
  have h := dense_registers_monotone (HLL.mk 4 false [] (List.replicate 16 0)) rfl
  exact ⟨h.1 (fun x => x) 7 3, h.2.1 (HLL.mk 4 true [128] []) rfl 3, h.2.2 [128] 3⟩

/-! ## Claim C2: sparse-list insertion and collision resolution -/

/-- Every element of the list after an insertion was already present or
is the inserted value. -/
lemma mem_addHashToSparseList {pP : Nat} (v : Nat) :
    ∀ l : List Nat, ∀ e ∈ addHashToSparseList l v pP, e ∈ l ∨ e = v := by
  intro l
  induction l with
  | nil =>
    intro e he
    simp [addHashToSparseList] at he
    right
    exact he
  | cons x xs ih =>
    intro e he
    rw [addHashToSparseList] at he
    split_ifs at he with h1 h2 h3 h4 h5 h6 h7
    · simp only [List.mem_cons] at he ⊢
      rcases he with rfl | hrec
      · left; left; rfl
      · rcases ih e hrec with h | h
        · left; right; exact h
        · right; exact h
    all_goals simp only [List.mem_cons] at he ⊢
    all_goals tauto

/-- Insertion preserves strict ascending order. -/
lemma pairwise_addHashToSparseList {pP : Nat} (v : Nat) :
    ∀ l : List Nat, List.Pairwise (· < ·) l →
      List.Pairwise (· < ·) (addHashToSparseList l v pP) := by
  intro l
  induction l with
  | nil =>
    intro _
    simp [addHashToSparseList]
  | cons x xs ih =>
    intro hp
    rw [List.pairwise_cons] at hp
    rw [addHashToSparseList]
    split_ifs with h1 h2 h3 h4 h5 h6 h7
    · rw [List.pairwise_cons]
      refine ⟨?_, ih hp.2⟩
      intro a ha
      rcases mem_addHashToSparseList v xs a ha with h | rfl
      · exact hp.1 a h
      · exact h1
    · exact List.pairwise_cons.mpr hp
    · exact List.pairwise_cons.mpr hp
    · rw [List.pairwise_cons]
      exact ⟨fun a ha => Nat.lt_trans h6 (hp.1 a ha), hp.2⟩
    · exact List.pairwise_cons.mpr hp
    · rw [List.pairwise_cons]
      have hvx : v < x := by omega
      exact ⟨fun a ha => Nat.lt_trans hvx (hp.1 a ha), hp.2⟩
    · exact List.pairwise_cons.mpr hp
    · rw [List.pairwise_cons]
      have hvx : v < x := by omega
      refine ⟨?_, List.pairwise_cons.mpr hp⟩
      intro a ha
      rcases List.mem_cons.mp ha with rfl | h
      · exact hvx
      · exact Nat.lt_trans hvx (hp.1 a h)

/-- When the first element not less than `v` shares its 25-bit prefix
with `v`, the insertion resolves the collision in place. -/
lemma addHash_collision_eq (pP v x : Nat) (xs : List Nat) :
    ∀ pre : List Nat, (∀ y ∈ pre, y < v) → v < x →
      extractHighBits32 v pP = extractHighBits32 x pP →
      addHashToSparseList (pre ++ x :: xs) v pP =
        pre ++ (if v &&& 1 = x &&& 1 then (if v &&& 1 = 1 then max x v else min x v)
                else if v &&& 1 = 1 then v else x) :: xs := by
  intro pre
  induction pre with
  | nil =>
    intro _ hvx hpfx
    simp only [List.nil_append]
    rw [addHashToSparseList, if_neg (by omega : ¬ x < v), if_neg (by omega : ¬ x = v),
      if_pos hpfx]
    by_cases hflag : x &&& 1 = v &&& 1
    · rw [if_pos hflag, if_pos hflag.symm]
      by_cases hone : v &&& 1 = 1
      · rw [if_pos hone, if_pos hone, if_neg (by omega : ¬ v > x),
          Nat.max_eq_left (Nat.le_of_lt hvx)]
      · rw [if_neg hone, if_neg hone, if_pos hvx, Nat.min_eq_right (Nat.le_of_lt hvx)]
    · rw [if_neg hflag, if_neg (fun h : v &&& 1 = x &&& 1 => hflag h.symm)]
      by_cases hone : v &&& 1 = 1
      · rw [if_pos hone, if_pos hone]
      · rw [if_neg hone, if_neg hone]
  | cons y pre ih =>
    intro hpre hvx hpfx
    simp only [List.cons_append]
    rw [addHashToSparseList, if_pos (hpre y (List.mem_cons_self y pre))]
    rw [ih (fun z hz => hpre z (List.mem_cons_of_mem y hz)) hvx hpfx]

/-- Claim C2, amended: insertion resolves a collision with the first
list element not less than `v` (when it shares the 25-bit prefix) by
keeping the larger value when both flag bits are 1, the smaller when
both are 0, and the flagged one otherwise; and insertion into a strictly
ascending list stays strictly ascending.  (The claimed at-most-one-entry
per-index invariant fails; see the counterexample.) -/
theorem addHashToSparseList_amended :
    (∀ (v : Nat) (vec : List Nat), List.Pairwise (· < ·) vec →
      List.Pairwise (· < ·) (addHashToSparseList vec v 25)) ∧
    (∀ (v x : Nat) (pre xs : List Nat), (∀ y ∈ pre, y < v) → v < x →
      extractHighBits32 v 25 = extractHighBits32 x 25 →
      addHashToSparseList (pre ++ x :: xs) v 25 =
        pre ++ (if v &&& 1 = x &&& 1 then (if v &&& 1 = 1 then max x v else min x v)
                else if v &&& 1 = 1 then v else x) :: xs) :=
  ⟨fun v vec h => pairwise_addHashToSparseList v vec h,
   fun v x pre xs hpre hvx hpfx => addHash_collision_eq 25 v x xs pre hpre hvx hpfx⟩

/-- Witness for the amended C2: a flagged-flagged collision keeps the
larger (higher-rank) entry, after skipping one smaller element. -/
theorem addHashToSparseList_amended_witness :
    List.Pairwise (· < ·) (addHashToSparseList [5, 1048579] 1048577 25) ∧
    addHashToSparseList ([5] ++ 1048579 :: []) 1048577 25 =
      [5] ++ (if 1048577 &&& 1 = 1048579 &&& 1
              then (if 1048577 &&& 1 = 1 then max 1048579 1048577 else min 1048579 1048577)
              else if 1048577 &&& 1 = 1 then 1048577 else 1048579) :: [] :=
  ⟨addHashToSparseList_amended.1 1048577 [5, 1048579] (by decide),
   addHashToSparseList_amended.2 1048577 1048579 [5] [] (by decide) (by decide) (by decide)⟩

/-- Claim C2 as stated is false: the hashes `2^52 + 2^38` and
`2^52 + 2^37` encode (at p = 12) to the flagged entries 1048579 (rank 1)
and 1048581 (rank 2) with the same 25-bit prefix 8192, yet inserting the
second into a list holding the first appends it, leaving two entries
with the same p-prime index instead of at most one. -/
theorem addHashToSparseList_counterexample :
    encodeHashIn32Bit (2^52 + 2^38) 12 25 = 1048579 ∧
    encodeHashIn32Bit (2^52 + 2^37) 12 25 = 1048581 ∧
    extractHighBits32 1048579 25 = extractHighBits32 1048581 25 ∧
    addHashToSparseList [1048579] 1048581 25 = [1048579, 1048581] := by
  decide

/-! ## Claim C4: when the representation switches -/

/-- Claim C4, amended: a single-item add in sparse mode converts to the
dense representation exactly when the updated list length exceeds
`2^p / 4`; a sparse-sparse merge ignores that threshold and stays sparse
whenever the combined entry count is at most `2^p` (converting only when
it exceeds `2^p`); merging a dense sketch into any sketch leaves the
result dense. -/
theorem representation_switch_amended :
    (∀ (s : HLL) (hv : Nat), s.sparse = true →
      ((addHash s hv).sparse = false ↔
        (addHashToSparseList s.sparseList (encodeHashIn32Bit hv s.p pPrime) pPrime).length >
          2^s.p / 4)) ∧
    (∀ a b : HLL, a.sparse = true → b.sparse = true →
      a.sparseList.length + b.sparseList.length ≤ 2^a.p → (mergeOk a b).sparse = true) ∧
    (∀ a b : HLL, a.sparse = true → b.sparse = true →
      a.sparseList.length + b.sparseList.length > 2^a.p → (mergeOk a b).sparse = false) ∧
    (∀ a b : HLL, b.sparse = false → (mergeOk a b).sparse = false) := by
  refine ⟨?_, ?_, ?_, ?_⟩
  · intro s hv hs
    rw [addHash, if_pos hs]
    by_cases hc : (addHashToSparseList s.sparseList (encodeHashIn32Bit hv s.p pPrime) pPrime).length >
        2^s.p / 4
    · rw [if_pos hc]
      exact ⟨fun _ => hc, fun _ => rfl⟩
    · rw [if_neg hc]
      constructor
      · intro hfalse
        rw [hs] at hfalse
        cases hfalse
      · intro h
        exact absurd h hc
  · intro a b ha hb hle
    rw [mergeOk, if_pos (by rw [ha, hb]; rfl), if_neg (by omega)]
    exact ha
  · intro a b ha hb hgt
    rw [mergeOk, if_pos (by rw [ha, hb]; rfl), if_pos hgt]
    rfl
  · intro a b hb
    rw [mergeOk, if_neg (by rw [hb]; simp), if_neg (by rw [hb]; simp)]
    by_cases hasp : a.sparse = true
    · rw [if_pos hasp]
      rfl
    · rw [if_neg hasp]
      exact Bool.eq_false_iff.mpr hasp

/-- Witness for the amended C4 at concrete sketches. -/
theorem representation_switch_amended_witness :
    ((addHash (emptySketch 4) (2^39)).sparse = false ↔
      (addHashToSparseList (emptySketch 4).sparseList
        (encodeHashIn32Bit (2^39) (emptySketch 4).p pPrime) pPrime).length > 2^(emptySketch 4).p / 4) ∧
    (mergeOk (HLL.mk 4 true [128, 256, 384] []) (HLL.mk 4 true [512, 640, 768] [])).sparse = true ∧
    (mergeOk (HLL.mk 4 true [128, 256, 384, 512, 640, 768, 896, 1024, 1152] [])
      (HLL.mk 4 true [1280, 1408, 1536, 1664, 1792, 1920, 2048, 2176] [])).sparse = false ∧
    (mergeOk (HLL.mk 4 true [128] []) (HLL.mk 4 false [] (List.replicate 16 0))).sparse = false :=
  ⟨representation_switch_amended.1 (emptySketch 4) (2^39) rfl,
   representation_switch_amended.2.1 _ _ rfl rfl (by decide),
   representation_switch_amended.2.2.1 _ _ rfl rfl (by decide),
   representation_switch_amended.2.2.2 _ _ rfl⟩

/-- Claim C4 as stated is false: merging two sparse precision-4 sketches
of three entries each (all built by add) leaves a sparse sketch whose
list has 6 entries, although 6 exceeds the switch threshold m/4 = 4. -/
theorem representation_switch_counterexample :
    (merge (build 4 (fun x => x) [2^39, 2*2^39, 3*2^39])
      (build 4 (fun x => x) [4*2^39, 5*2^39, 6*2^39])).isOk = true ∧
    (mergeOk (build 4 (fun x => x) [2^39, 2*2^39, 3*2^39])
      (build 4 (fun x => x) [4*2^39, 5*2^39, 6*2^39])).sparse = true ∧
    (mergeOk (build 4 (fun x => x) [2^39, 2*2^39, 3*2^39])
      (build 4 (fun x => x) [4*2^39, 5*2^39, 6*2^39])).sparseList.length = 6 ∧
    (mergeOk (build 4 (fun x => x) [2^39, 2*2^39, 3*2^39])
      (build 4 (fun x => x) [4*2^39, 5*2^39, 6*2^39])).sparseList.length >
      2^(mergeOk (build 4 (fun x => x) [2^39, 2*2^39, 3*2^39])
        (build 4 (fun x => x) [4*2^39, 5*2^39, 6*2^39])).p / 4 := by
  decide

/-! ## Claim C5: the sparse cardinality estimate truncates, not rounds -/

/-- Standard lower bound on the logarithm, `1 - 1/y ≤ log y`. -/
lemma log_ge_one_sub_inv {y : Real} (hy : 0 < y) : 1 - 1/y ≤ Real.log y := by
  rw [one_div]
  have h := Real.log_le_sub_one_of_pos (show (0:Real) < y⁻¹ by positivity)
  rw [Real.log_inv] at h
  linarith

/-- Two-sided rational bounds on `2^25 * log (2^25 / (2^25 - 7000))`,
obtained from eighth-root rational approximations. -/
lemma linearCounting_7000_bounds :
    7000.5 < (33554432 : Real) * Real.log ((33554432 : Real) / 33547432) ∧
    (33554432 : Real) * Real.log ((33554432 : Real) / 33547432) < 7001 := by
  constructor
  · have hq : ((5000130399 : Real)/5000000000)^(8:Nat) ≤ (33554432 : Real) / 33547432 := by
      norm_num
    have h1 : Real.log (((5000130399 : Real)/5000000000)^(8:Nat)) ≤
        Real.log ((33554432 : Real)/33547432) :=
      Real.log_le_log (by positivity) hq
    rw [Real.log_pow] at h1
    push_cast at h1
    have h2 : 1 - 1/((5000130399 : Real)/5000000000) ≤
        Real.log ((5000130399 : Real)/5000000000) :=
      log_ge_one_sub_inv (by norm_num)
    have h3 : (7000.5 : Real) < 33554432 * (8 * (1 - 1/((5000130399 : Real)/5000000000))) := by
      norm_num
    linarith
  · have hq : (33554432 : Real) / 33547432 ≤ ((2500065201 : Real)/2500000000)^(8:Nat) := by
      norm_num
    have h1 : Real.log ((33554432 : Real)/33547432) ≤
        Real.log (((2500065201 : Real)/2500000000)^(8:Nat)) :=
      Real.log_le_log (by norm_num) hq
    rw [Real.log_pow] at h1
    push_cast at h1
    have h2 : Real.log ((2500065201 : Real)/2500000000) ≤ (2500065201 : Real)/2500000000 - 1 :=
      Real.log_le_sub_one_of_pos (by norm_num)
    have h3 : (33554432 : Real) * (8 * ((2500065201 : Real)/2500000000 - 1)) < 7001 := by
      norm_num
    linarith

/-- The sparse estimate always takes the ok branch (`v ≤ m` holds by
construction) and returns the floor of the real-valued linear count. -/
lemma heuleCardinalitySparse_eq (s : HLL) :
    heuleCardinalitySparse s =
      Except.ok ⌊(mPrime : Real) * Real.log ((mPrime : Real) / ((mPrime - s.sparseList.length : Nat) : Real))⌋ := by
  rw [heuleCardinalitySparse, linearCounting,
    if_neg (by omega : ¬ (mPrime - s.sparseList.length > mPrime))]
  rfl

set_option maxRecDepth 8000 in
/-- Claim C5 as stated is false: a sparse sketch holding 7000 entries has
`linear_counting(2^25, 2^25 - 7000) ≈ 7000.73`; the code truncates the
double to `uint64_t` and returns 7000, while the nearest integer is 7001. -/
theorem heuleCardinalitySparse_counterexample :
    heuleCardinalitySparse (HLL.mk 14 true ((List.range 7000).map (fun i => i * 128)) []) =
      Except.ok (7000 : Int) ∧
    round ((mPrime : Real) *
      Real.log ((mPrime : Real) / ((mPrime - 7000 : Nat) : Real))) = (7001 : Int) := by
  have hb := linearCounting_7000_bounds
  have hm : ((mPrime : Nat) : Real) = 33554432 := by norm_num [mPrime]
  have hv : ((mPrime - 7000 : Nat) : Real) = 33547432 := by norm_num [mPrime]
  have key : ∀ s : HLL, s.sparseList.length = 7000 →
      heuleCardinalitySparse s = Except.ok (7000 : Int) := by
    intro s hlen
    rw [heuleCardinalitySparse_eq, hlen]
    congr 1
    rw [hm, hv, Int.floor_eq_iff]
    push_cast
    constructor
    · linarith [hb.1]
    · linarith [hb.2]
  constructor
  · exact key _ (by simp)
  · rw [hm, hv, round_eq, Int.floor_eq_iff]
    push_cast
    constructor
    · linarith [hb.1]
    · linarith [hb.2]

/-- Claim C5, amended: in sparse mode the code returns
`linear_counting(mPrime, mPrime - sparseList.size())` truncated toward
zero, i.e. its floor, which equals the nearest integer or the integer
one below it. -/
theorem heuleCardinalitySparse_amended (s : HLL) (hs : s.sparse = true) :
    heuleCardinalitySparse s =
      Except.ok ⌊(mPrime : Real) * Real.log ((mPrime : Real) / ((mPrime - s.sparseList.length : Nat) : Real))⌋ ∧
    ⌊(mPrime : Real) * Real.log ((mPrime : Real) / ((mPrime - s.sparseList.length : Nat) : Real))⌋ ≤
      round ((mPrime : Real) * Real.log ((mPrime : Real) / ((mPrime - s.sparseList.length : Nat) : Real))) ∧
    round ((mPrime : Real) * Real.log ((mPrime : Real) / ((mPrime - s.sparseList.length : Nat) : Real))) ≤
      ⌊(mPrime : Real) * Real.log ((mPrime : Real) / ((mPrime - s.sparseList.length : Nat) : Real))⌋ + 1 := by
  refine ⟨heuleCardinalitySparse_eq s, ?_, ?_⟩
  · rw [round_eq]
    exact Int.floor_le_floor (by linarith)
  · rw [round_eq]
    calc ⌊(mPrime : Real) * Real.log ((mPrime : Real) / ((mPrime - s.sparseList.length : Nat) : Real)) + 1/2⌋
        ≤ ⌊(mPrime : Real) * Real.log ((mPrime : Real) / ((mPrime - s.sparseList.length : Nat) : Real)) + 1⌋ :=
          Int.floor_le_floor (by linarith)
    _ = ⌊(mPrime : Real) * Real.log ((mPrime : Real) / ((mPrime - s.sparseList.length : Nat) : Real))⌋ + 1 :=
          Int.floor_add_one _

/-- Witness for the amended C5 at a concrete one-entry sparse sketch. -/
theorem heuleCardinalitySparse_amended_witness :
    heuleCardinalitySparse (HLL.mk 12 true [128] []) =
      Except.ok ⌊(mPrime : Real) * Real.log ((mPrime : Real) / ((mPrime - (HLL.mk 12 true [128] []).sparseList.length : Nat) : Real))⌋ ∧
    ⌊(mPrime : Real) * Real.log ((mPrime : Real) / ((mPrime - (HLL.mk 12 true [128] []).sparseList.length : Nat) : Real))⌋ ≤
      round ((mPrime : Real) * Real.log ((mPrime : Real) / ((mPrime - (HLL.mk 12 true [128] []).sparseList.length : Nat) : Real))) ∧
    round ((mPrime : Real) * Real.log ((mPrime : Real) / ((mPrime - (HLL.mk 12 true [128] []).sparseList.length : Nat) : Real))) ≤
      ⌊(mPrime : Real) * Real.log ((mPrime : Real) / ((mPrime - (HLL.mk 12 true [128] []).sparseList.length : Nat) : Real))⌋ + 1 :=
  heuleCardinalitySparse_amended (HLL.mk 12 true [128] []) rfl

/-! ## Claim C6: merge commutativity on the dense registers

The proof works through an abstraction: `drainF l p i` is the largest
rank any entry of `l` contributes to register `i` when the list is
drained, and the forced-dense registers of a merged sketch are the
pointwise maximum of the abstractions of the two operands. -/

/-- Rank contributed to register `i` when entry `e` is drained. -/
def contrib (e p i : Nat) : Nat :=
  if registerIdx e p = i then getEncodedRank e pPrime p else 0

/-- Largest rank the entries of `l` contribute to register `i`. -/
def drainF (l : List Nat) (p i : Nat) : Nat :=
  l.foldr (fun e acc => max (contrib e p i) acc) 0

lemma drainF_nil (p i : Nat) : drainF [] p i = 0 := rfl

lemma drainF_cons (e : Nat) (t : List Nat) (p i : Nat) :
    drainF (e :: t) p i = max (contrib e p i) (drainF t p i) := rfl

/-- Pointwise description of a drain: each register becomes the max of
its old value and the largest contribution of the list. -/
lemma addToRegisters_getD (p : Nat) (t : List Nat) :
    ∀ M : List Nat, (∀ e ∈ t, registerIdx e p < M.length) → ∀ i, i < M.length →
      (addToRegisters M t p).getD i 0 = max (M.getD i 0) (drainF t p i) := by
  induction t with
  | nil =>
    intro M _ i _
    rw [addToRegisters_nil, drainF_nil]
    omega
  | cons e t ih =>
    intro M hb i hi
    have hj : registerIdx e p < M.length := hb e (List.mem_cons_self e t)
    have hbt : ∀ x ∈ t, registerIdx x p < M.length := fun x hx => hb x (List.mem_cons_of_mem e hx)
    rw [addToRegisters_cons, drainF_cons]
    by_cases hc : getEncodedRank e pPrime p > M.getD (registerIdx e p) 0
    · rw [if_pos hc]
      rw [ih (M.set (registerIdx e p) (getEncodedRank e pPrime p))
        (by intro x hx; rw [List.length_set]; exact hbt x hx) i (by rw [List.length_set]; exact hi)]
      by_cases hij : registerIdx e p = i
      · rw [← hij, getD_set_self hj]
        have hce : contrib e p (registerIdx e p) = getEncodedRank e pPrime p := by
          rw [contrib, if_pos rfl]
        rw [hce]
        omega
      · rw [getD_set_ne hij]
        have hce : contrib e p i = 0 := by rw [contrib, if_neg hij]
        rw [hce]
        omega
    · rw [if_neg hc]
      rw [ih M hbt i hi]
      by_cases hij : registerIdx e p = i
      · rw [← hij]
        have hce : contrib e p (registerIdx e p) = getEncodedRank e pPrime p := by
          rw [contrib, if_pos rfl]
        rw [hce]
        omega
      · have hce : contrib e p i = 0 := by rw [contrib, if_neg hij]
        rw [hce]
        omega

/-- A well-formed encoding with flag bit 1: prefix condition and rank field. -/
lemma validEnc_flag1 {p e : Nat} (hv : ValidEnc p e) (h1 : e &&& 1 = 1) :
    e >>> 7 % 2^(25-p) = 0 ∧ ∃ r, 1 ≤ r ∧ r ≤ 40 ∧ e % 128 = 2*r + 1 := by
  rw [Nat.and_one_is_mod] at h1
  rcases hv.2 with ⟨hm, _⟩ | h
  · omega
  · exact h

/-- A well-formed encoding with flag bit 0: zero low byte, nonzero low
prefix bits. -/
lemma validEnc_flag0 {p e : Nat} (hv : ValidEnc p e) (h0 : ¬ e &&& 1 = 1) :
    e % 128 = 0 ∧ e >>> 7 % 2^(25-p) ≠ 0 := by
  rw [Nat.and_one_is_mod] at h0
  rcases hv.2 with h | ⟨_, r, _, _, hm⟩
  · exact h
  · omega

/-- Two well-formed encodings with the same 25-bit prefix have the same
flag bit. -/
lemma flag_eq_of_high7 {p v x : Nat} (hvv : ValidEnc p v) (hvx : ValidEnc p x)
    (h7 : v >>> 7 = x >>> 7) : v &&& 1 = x &&& 1 := by
  rw [Nat.and_one_is_mod, Nat.and_one_is_mod]
  rcases hvv.2 with ⟨hm1, hp1⟩ | ⟨hp1, r1, _, _, hm1⟩ <;>
    rcases hvx.2 with ⟨hm2, hp2⟩ | ⟨hp2, r2, _, _, hm2⟩
  · omega
  · rw [h7] at hp1; omega
  · rw [h7] at hp1; omega
  · omega

/-- Two well-formed flag-0 encodings with the same prefix are equal. -/
lemma flag0_unique {p v x : Nat} (hvv : ValidEnc p v) (hvx : ValidEnc p x)
    (h7 : v >>> 7 = x >>> 7) (h0 : ¬ v &&& 1 = 1) : v = x := by
  have hx0 : ¬ x &&& 1 = 1 := by
    rw [← flag_eq_of_high7 hvv hvx h7]
    exact h0
  obtain ⟨hv128, -⟩ := validEnc_flag0 hvv h0
  obtain ⟨hx128, -⟩ := validEnc_flag0 hvx hx0
  have hvd : v >>> 7 = v / 128 := by rw [Nat.shiftRight_eq_div_pow]
  have hxd : x >>> 7 = x / 128 := by rw [Nat.shiftRight_eq_div_pow]
  rw [hvd, hxd] at h7
  omega

/-- Same prefix gives the same (truncated) register index. -/
lemma registerIdx_eq_of_high7 {v x p : Nat} (hp : p ≤ 25) (h7 : v >>> 7 = x >>> 7) :
    registerIdx v p = registerIdx x p := by
  rw [registerIdx, registerIdx]
  congr 1
  rw [getIndex32, getIndex32]
  have hsplit : ∀ y : Nat, y >>> (32-p) = (y >>> 7) >>> (25-p) := by
    intro y
    rw [← Nat.shiftRight_add]
    congr 1
    omega
  rw [hsplit v, hsplit x, h7]

/-- For two flagged encodings with the same prefix, the larger value has
the larger decoded rank. -/
lemma rank_le_of_flag1_lt {p v x : Nat} (hvv : ValidEnc p v) (hvx : ValidEnc p x)
    (h7 : v >>> 7 = x >>> 7) (hvlt : v < x) (hfv : v &&& 1 = 1) (hfx : x &&& 1 = 1) :
    getEncodedRank v 25 p ≤ getEncodedRank x 25 p := by
  obtain ⟨-, rv, hrv1, hrv40, hmodv⟩ := validEnc_flag1 hvv hfv
  obtain ⟨-, rx, hrx1, hrx40, hmodx⟩ := validEnc_flag1 hvx hfx
  rw [getEncodedRank_flag1 hrv40 hmodv, getEncodedRank_flag1 hrx40 hmodx]
  have hvd : v >>> 7 = v / 128 := by rw [Nat.shiftRight_eq_div_pow]
  have hxd : x >>> 7 = x / 128 := by rw [Nat.shiftRight_eq_div_pow]
  rw [hvd, hxd] at h7
  omega

/-- Inserting a well-formed encoding updates the drain abstraction to the
pointwise max with the inserted contribution. -/
lemma drainF_addHash {p : Nat} (hp : p ≤ 25) (v : Nat) (hvv : ValidEnc p v) :
    ∀ l : List Nat, (∀ e ∈ l, ValidEnc p e) → ∀ i,
      drainF (addHashToSparseList l v pPrime) p i = max (drainF l p i) (contrib v p i) := by
  intro l
  induction l with
  | nil =>
    intro _ i
    rw [show addHashToSparseList [] v pPrime = [v] from rfl, drainF_cons, drainF_nil]
    omega
  | cons x xs ih =>
    intro hl i
    have hxv : ValidEnc p x := hl x (List.mem_cons_self x xs)
    have hxs : ∀ e ∈ xs, ValidEnc p e := fun e he => hl e (List.mem_cons_of_mem x he)
    rw [addHashToSparseList]
    split_ifs with h1 h2 h3 h4 h5 h6 h7
    · rw [drainF_cons, ih hxs i, drainF_cons]
      omega
    · subst h2
      rw [drainF_cons]
      omega
    · -- both flagged, keep the larger (x); the inserted contribution is dominated
      have h7v : v >>> 7 = x >>> 7 := h3
      have hvltx : v < x := by omega
      have hfx : x &&& 1 = 1 := by rw [h4]; exact h5
      have hrank := rank_le_of_flag1_lt hvv hxv h7v hvltx h5 hfx
      have hidx := registerIdx_eq_of_high7 hp h7v
      have hcontrib : contrib v p i ≤ contrib x p i := by
        rw [contrib, contrib, hidx]
        by_cases hcase : registerIdx x p = i
        · rw [if_pos hcase, if_pos hcase]
          exact hrank
        · rw [if_neg hcase, if_neg hcase]
      rw [drainF_cons]
      omega
    · -- both flag 0 and distinct values with equal prefix: impossible
      exact absurd (flag0_unique hvv hxv h3 (by rw [← h4] at h5 ⊢; exact h5)).symm h2
    · exact absurd (flag0_unique hvv hxv h3 (by rw [← h4] at h5 ⊢; exact h5)).symm h2
    · -- flags differ with equal prefix: impossible
      exact absurd (flag_eq_of_high7 hvv hxv h3) (fun h => h4 h.symm)
    · exact absurd (flag_eq_of_high7 hvv hxv h3) (fun h => h4 h.symm)
    · simp only [drainF_cons]
      omega

/-- Folding a list of insertions: the drain abstraction becomes the
pointwise max of the abstractions of both lists. -/
lemma drainF_foldl_insert {p : Nat} (hp : p ≤ 25) :
    ∀ bs l : List Nat, (∀ e ∈ l, ValidEnc p e) → (∀ e ∈ bs, ValidEnc p e) → ∀ i,
      drainF (bs.foldl (fun acc v => addHashToSparseList acc v pPrime) l) p i =
        max (drainF l p i) (drainF bs p i) := by
  intro bs
  induction bs with
  | nil =>
    intro l _ _ i
    rw [List.foldl_nil, drainF_nil]
    omega
  | cons v bs ih =>
    intro l hl hbs i
    rw [List.foldl_cons]
    have hvv : ValidEnc p v := hbs v (List.mem_cons_self v bs)
    have hbs2 : ∀ e ∈ bs, ValidEnc p e := fun e he => hbs e (List.mem_cons_of_mem v he)
    have hl2 : ∀ e ∈ addHashToSparseList l v pPrime, ValidEnc p e := by
      intro e he
      rcases mem_addHashToSparseList v l e he with h | rfl
      · exact hl e h
      · exact hvv
    rw [ih (addHashToSparseList l v pPrime) hl2 hbs2 i,
      drainF_addHash hp v hvv l hl i, drainF_cons]
    omega

/-- getD on a replicate-zero register file. -/
lemma getD_replicate_zero (n i : Nat) : (List.replicate n (0:Nat)).getD i 0 = 0 := by
  rw [List.getD_eq_getElem?_getD]
  rcases Nat.lt_or_ge i n with h | h
  · rw [List.getElem?_eq_getElem (by simpa using h)]
    simp
  · rw [List.getElem?_eq_none (by simpa using h)]
    rfl

/-- Registers after the sparse-to-dense switch: exactly the drain
abstraction of the sparse list. -/
lemma switchToNormal_spec {p : Nat} (s : HLL) (hsp : s.p = p)
    (hval : ∀ e ∈ s.sparseList, ValidEnc p e) :
    (switchToNormalRepresentation s).sparse = false ∧
    (switchToNormalRepresentation s).M.length = 2^p ∧
    ∀ i, i < 2^p → (switchToNormalRepresentation s).M.getD i 0 = drainF s.sparseList p i := by
  refine ⟨rfl, ?_, ?_⟩
  · show (if 0 < s.sparseList.length
        then addToRegisters (List.replicate (2^s.p) 0) s.sparseList s.p
        else List.replicate (2^s.p) 0).length = 2^p
    by_cases hn : 0 < s.sparseList.length
    · rw [if_pos hn, addToRegisters_length, List.length_replicate, hsp]
    · rw [if_neg hn, List.length_replicate, hsp]
  · intro i hi
    show (if 0 < s.sparseList.length
        then addToRegisters (List.replicate (2^s.p) 0) s.sparseList s.p
        else List.replicate (2^s.p) 0).getD i 0 = drainF s.sparseList p i
    by_cases hn : 0 < s.sparseList.length
    · rw [if_pos hn, hsp]
      rw [addToRegisters_getD p s.sparseList (List.replicate (2^p) 0)
        (by
          intro e he
          rw [List.length_replicate]
          exact registerIdx_lt (hval e he).1)
        i (by rw [List.length_replicate]; exact hi)]
      rw [getD_replicate_zero]
      omega
    · rw [if_neg hn]
      have : s.sparseList = [] := List.length_eq_zero.mp (by omega)
      rw [this, drainF_nil, getD_replicate_zero]

/-- Invariant tying a sketch to its precision: well-formed sparse
entries in sparse mode, a full-size register file in dense mode. -/
def SketchInv (p : Nat) (s : HLL) : Prop :=
  s.p = p ∧ (s.sparse = true → ∀ e ∈ s.sparseList, ValidEnc p e) ∧
    (s.sparse = false → s.M.length = 2^p)

lemma sketchInv_emptySketch (p : Nat) : SketchInv p (emptySketch p) := by
  refine ⟨rfl, ?_, ?_⟩
  · intro _ e he
    cases he
  · intro h
    cases h

lemma sketchInv_switch {p : Nat} {s : HLL} (hinv : SketchInv p s)
    (hval : ∀ e ∈ s.sparseList, ValidEnc p e) :
    SketchInv p (switchToNormalRepresentation s) := by
  obtain ⟨hsw, hlen, -⟩ := switchToNormal_spec s hinv.1 hval
  refine ⟨hinv.1, ?_, fun _ => hlen⟩
  intro hcon
  rw [hsw] at hcon
  cases hcon

lemma sketchInv_addHash {p : Nat} (hp : p ≤ 25) {s : HLL} (hinv : SketchInv p s)
    {h : Nat} (hh : h < 2^64) : SketchInv p (addHash s h) := by
  rw [addHash]
  by_cases hs : s.sparse = true
  · rw [if_pos hs]
    have hval : ∀ e ∈ addHashToSparseList s.sparseList (encodeHashIn32Bit h s.p pPrime) pPrime,
        ValidEnc p e := by
      intro e he
      rcases mem_addHashToSparseList _ _ e he with h1 | rfl
      · exact hinv.2.1 hs e h1
      · rw [hinv.1]
        exact encode_valid hh hp
    set s1 : HLL := { s with
      sparseList := addHashToSparseList s.sparseList (encodeHashIn32Bit h s.p pPrime) pPrime }
    have hinv1 : SketchInv p s1 := ⟨hinv.1, fun _ => hval, fun hf => hinv.2.2 hf⟩
    by_cases hc : s1.sparseList.length > 2^s1.p / 4
    · rw [if_pos hc]
      exact sketchInv_switch hinv1 hval
    · rw [if_neg hc]
      exact hinv1
  · rw [if_neg hs]
    by_cases hc : getRank64 h s.p > s.M.getD (getIndex64 h s.p) 0
    · rw [if_pos hc]
      refine ⟨hinv.1, fun hcon => absurd hcon hs, ?_⟩
      intro _
      rw [List.length_set]
      exact hinv.2.2 (Bool.eq_false_iff.mpr hs)
    · rw [if_neg hc]
      exact hinv

lemma sketchInv_build (p : Nat) (hp : p ≤ 25) (bit_mixer : Nat → Nat) (items : List Nat) :
    SketchInv p (build p bit_mixer items) := by
  rw [build]
  have key : ∀ (l : List Nat) (s : HLL), SketchInv p s →
      SketchInv p (l.foldl (add bit_mixer) s) := by
    intro l
    induction l with
    | nil => intro s hs; exact hs
    | cons a l ih =>
      intro s hs
      rw [List.foldl_cons]
      exact ih _ (sketchInv_addHash hp hs (Nat.mod_lt _ (Nat.two_pow_pos 64)))
  exact key items (emptySketch p) (sketchInv_emptySketch p)

/-- Pointwise description of the register-max loop over the first `n`
indices. -/
lemma mergeLoop_getD (B : List Nat) :
    ∀ (n : Nat) (A : List Nat), n ≤ A.length →
      (((List.range n).foldl
          (fun M i => if B.getD i 0 > M.getD i 0 then M.set i (B.getD i 0) else M) A).length
        = A.length ∧
       ∀ i, ((List.range n).foldl
          (fun M i => if B.getD i 0 > M.getD i 0 then M.set i (B.getD i 0) else M) A).getD i 0 =
         if i < n then max (A.getD i 0) (B.getD i 0) else A.getD i 0) := by
  intro n
  induction n with
  | zero =>
    intro A _
    refine ⟨rfl, fun i => ?_⟩
    rw [if_neg (by omega)]
    rfl
  | succ n ih =>
    intro A hn
    have ihA := ih A (by omega)
    rw [List.range_succ, List.foldl_append, List.foldl_cons, List.foldl_nil]
    have hA'n : ((List.range n).foldl
        (fun M i => if B.getD i 0 > M.getD i 0 then M.set i (B.getD i 0) else M) A).getD n 0 =
        A.getD n 0 := by
      rw [ihA.2 n, if_neg (by omega)]
    constructor
    · by_cases hc : B.getD n 0 > ((List.range n).foldl
          (fun M i => if B.getD i 0 > M.getD i 0 then M.set i (B.getD i 0) else M) A).getD n 0
      · rw [if_pos hc, List.length_set, ihA.1]
      · rw [if_neg hc, ihA.1]
    · intro i
      by_cases hc : B.getD n 0 > ((List.range n).foldl
          (fun M i => if B.getD i 0 > M.getD i 0 then M.set i (B.getD i 0) else M) A).getD n 0
      · rw [if_pos hc]
        by_cases hin : i = n
        · subst hin
          rw [getD_set_self (by rw [ihA.1]; omega), if_pos (by omega)]
          rw [hA'n] at hc
          omega
        · rw [getD_set_ne (fun h => hin h.symm), ihA.2 i]
          by_cases hi : i < n
          · rw [if_pos hi, if_pos (by omega)]
          · rw [if_neg hi, if_neg (by omega)]
      · rw [if_neg hc, ihA.2 i]
        by_cases hin : i = n
        · subst hin
          rw [if_neg (by omega), if_pos (by omega)]
          rw [hA'n] at hc
          omega
        · by_cases hi : i < n
          · rw [if_pos hi, if_pos (by omega)]
          · rw [if_neg hi, if_neg (by omega)]

/-- The dense-dense merge loop takes the pointwise maximum when the two
register files have equal length. -/
lemma maxMergeRegisters_spec {A B : List Nat} (hlen : B.length = A.length) :
    (maxMergeRegisters A B).length = A.length ∧
    ∀ i, i < A.length → (maxMergeRegisters A B).getD i 0 = max (A.getD i 0) (B.getD i 0) := by
  have h := mergeLoop_getD B B.length A (by omega)
  rw [maxMergeRegisters]
  refine ⟨h.1, fun i hi => ?_⟩
  rw [h.2 i, if_pos (by omega)]

/-- Abstract register value of a sketch: the drain abstraction of the
sparse list in sparse mode, the register file itself in dense mode. -/
def regsF (p : Nat) (s : HLL) (i : Nat) : Nat :=
  if s.sparse then drainF s.sparseList p i else s.M.getD i 0

/-- Forcing a sketch dense realises its abstract register values. -/
lemma forceDense_spec {p : Nat} (s : HLL) (hinv : SketchInv p s) :
    (forceDense s).M.length = 2^p ∧
    ∀ i, i < 2^p → (forceDense s).M.getD i 0 = regsF p s i := by
  by_cases hs : s.sparse = true
  · rw [forceDense, if_pos hs]
    obtain ⟨-, hlen, hget⟩ := switchToNormal_spec s hinv.1 (hinv.2.1 hs)
    refine ⟨hlen, fun i hi => ?_⟩
    rw [hget i hi, regsF, if_pos hs]
  · rw [forceDense, if_neg hs]
    refine ⟨hinv.2.2 (Bool.eq_false_iff.mpr hs), fun i hi => ?_⟩
    rw [regsF, if_neg hs]

/-- Elements of a fold of insertions come from one of the two lists. -/
lemma mem_foldl_insert {pP : Nat} :
    ∀ (bs l : List Nat) (e : Nat),
      e ∈ bs.foldl (fun acc v => addHashToSparseList acc v pP) l → e ∈ l ∨ e ∈ bs := by
  intro bs
  induction bs with
  | nil =>
    intro l e he
    exact Or.inl he
  | cons v bs ih =>
    intro l e he
    rw [List.foldl_cons] at he
    rcases ih _ e he with h | h
    · rcases mem_addHashToSparseList v l e h with h1 | rfl
      · exact Or.inl h1
      · exact Or.inr (List.mem_cons_self _ _)
    · exact Or.inr (List.mem_cons_of_mem _ h)

/-- The merged sketch satisfies the invariant and its abstract registers
are the pointwise maximum of the abstract registers of the operands. -/
lemma mergeOk_spec {p : Nat} (hp : p ≤ 25) (a b : HLL)
    (ha : SketchInv p a) (hb : SketchInv p b) :
    SketchInv p (mergeOk a b) ∧
    ∀ i, i < 2^p → regsF p (mergeOk a b) i = max (regsF p a i) (regsF p b i) := by
  by_cases hasp : a.sparse = true
  · by_cases hbsp : b.sparse = true
    · have hcond : (a.sparse && b.sparse) = true := by rw [hasp, hbsp]; rfl
      by_cases hsz : a.sparseList.length + b.sparseList.length > 2^a.p
      · -- both sparse, overflow: switch a, drain b into the registers
        have heq : mergeOk a b =
            { switchToNormalRepresentation a with
              M := addToRegisters (switchToNormalRepresentation a).M b.sparseList
                (switchToNormalRepresentation a).p } := by
          rw [mergeOk, if_pos hcond, if_pos hsz]
        obtain ⟨hsw, hlen, hget⟩ := switchToNormal_spec a ha.1 (ha.2.1 hasp)
        have hbval := hb.2.1 hbsp
        have hps : (mergeOk a b).p = a.p := by rw [heq]; rfl
        have hsps : (mergeOk a b).sparse = false := by rw [heq]; exact hsw
        have hMs : (mergeOk a b).M = addToRegisters (switchToNormalRepresentation a).M b.sparseList a.p := by
          rw [heq]; rfl
        have hreg : ∀ i, i < 2^p → (mergeOk a b).M.getD i 0 =
            max (drainF a.sparseList p i) (drainF b.sparseList p i) := by
          intro i hi
          rw [hMs, ha.1]
          rw [addToRegisters_getD p b.sparseList (switchToNormalRepresentation a).M
            (by
              intro e he
              rw [hlen]
              exact registerIdx_lt (hbval e he).1)
            i (by rw [hlen]; exact hi)]
          rw [hget i hi]
        constructor
        · refine ⟨hps.trans ha.1, ?_, ?_⟩
          · intro hcon
            rw [hsps] at hcon
            cases hcon
          · intro _
            rw [hMs, addToRegisters_length, hlen]
        · intro i hi
          rw [regsF, if_neg (by rw [hsps]; simp), hreg i hi,
            regsF, if_pos hasp, regsF, if_pos hbsp]
      · -- both sparse, no overflow: fold the insertions
        have heq : mergeOk a b =
            { a with sparseList :=
              b.sparseList.foldl (fun l v => addHashToSparseList l v pPrime) a.sparseList } := by
          rw [mergeOk, if_pos hcond, if_neg hsz]
        have haval := ha.2.1 hasp
        have hbval := hb.2.1 hbsp
        have hps : (mergeOk a b).p = a.p := by rw [heq]
        have hsps : (mergeOk a b).sparse = a.sparse := by rw [heq]
        have hls : (mergeOk a b).sparseList =
            b.sparseList.foldl (fun l v => addHashToSparseList l v pPrime) a.sparseList := by
          rw [heq]
        constructor
        · refine ⟨hps.trans ha.1, ?_, ?_⟩
          · intro _ e he
            rw [hls] at he
            rcases mem_foldl_insert b.sparseList a.sparseList e he with h | h
            · exact haval e h
            · exact hbval e h
          · intro hcon
            rw [hsps, hasp] at hcon
            cases hcon
        · intro i hi
          rw [regsF, if_pos (by rw [hsps]; exact hasp), hls]
          rw [drainF_foldl_insert hp b.sparseList a.sparseList haval hbval i]
          rw [regsF, if_pos hasp, regsF, if_pos hbsp]
    · -- a sparse, b dense: switch a, pointwise max with b
      have hcond : ¬ ((a.sparse && b.sparse) = true) := by
        rw [Bool.eq_false_iff.mpr hbsp]
        simp
      have heq : mergeOk a b =
          { switchToNormalRepresentation a with
            M := maxMergeRegisters (switchToNormalRepresentation a).M b.M } := by
        rw [mergeOk, if_neg hcond, if_neg hbsp, if_pos hasp]
      obtain ⟨hsw, hlen, hget⟩ := switchToNormal_spec a ha.1 (ha.2.1 hasp)
      have hblen : b.M.length = (switchToNormalRepresentation a).M.length := by
        rw [hlen, hb.2.2 (Bool.eq_false_iff.mpr hbsp)]
      obtain ⟨hmlen, hmget⟩ := maxMergeRegisters_spec hblen
      have hps : (mergeOk a b).p = a.p := by rw [heq]; rfl
      have hsps : (mergeOk a b).sparse = false := by rw [heq]; exact hsw
      have hMs : (mergeOk a b).M = maxMergeRegisters (switchToNormalRepresentation a).M b.M := by
        rw [heq]
      constructor
      · refine ⟨hps.trans ha.1, ?_, ?_⟩
        · intro hcon
          rw [hsps] at hcon
          cases hcon
        · intro _
          rw [hMs, hmlen, hlen]
      · intro i hi
        rw [regsF, if_neg (by rw [hsps]; simp), hMs,
          hmget i (by rw [hlen]; exact hi), hget i hi,
          regsF, if_pos hasp, regsF, if_neg hbsp]
  · have hcond : ¬ ((a.sparse && b.sparse) = true) := by
      rw [Bool.eq_false_iff.mpr hasp]
      simp
    have halen := ha.2.2 (Bool.eq_false_iff.mpr hasp)
    by_cases hbsp : b.sparse = true
    · -- a dense, b sparse: drain b into the registers of a
      have heq : mergeOk a b = { a with M := addToRegisters a.M b.sparseList a.p } := by
        rw [mergeOk, if_neg hcond, if_pos hbsp]
      have hbval := hb.2.1 hbsp
      have hps : (mergeOk a b).p = a.p := by rw [heq]
      have hsps : (mergeOk a b).sparse = a.sparse := by rw [heq]
      have hMs : (mergeOk a b).M = addToRegisters a.M b.sparseList a.p := by rw [heq]
      constructor
      · refine ⟨hps.trans ha.1, ?_, ?_⟩
        · intro hcon
          rw [hsps] at hcon
          exact absurd hcon hasp
        · intro _
          rw [hMs, addToRegisters_length, halen]
      · intro i hi
        rw [regsF, if_neg (by rw [hsps]; exact hasp), hMs, ha.1]
        rw [addToRegisters_getD p b.sparseList a.M
          (by
            intro e he
            rw [halen]
            exact registerIdx_lt (hbval e he).1)
          i (by rw [halen]; exact hi)]
        rw [regsF, if_neg hasp, regsF, if_pos hbsp]
    · -- both dense: pointwise max
      have heq : mergeOk a b = { a with M := maxMergeRegisters a.M b.M } := by
        rw [mergeOk, if_neg hcond, if_neg hbsp, if_neg hasp]
      have hblen : b.M.length = a.M.length := by
        rw [halen, hb.2.2 (Bool.eq_false_iff.mpr hbsp)]
      obtain ⟨hmlen, hmget⟩ := maxMergeRegisters_spec hblen
      have hps : (mergeOk a b).p = a.p := by rw [heq]
      have hsps : (mergeOk a b).sparse = a.sparse := by rw [heq]
      have hMs : (mergeOk a b).M = maxMergeRegisters a.M b.M := by rw [heq]
      constructor
      · refine ⟨hps.trans ha.1, ?_, ?_⟩
        · intro hcon
          rw [hsps] at hcon
          exact absurd hcon hasp
        · intro _
          rw [hMs, hmlen, halen]
      · intro i hi
        rw [regsF, if_neg (by rw [hsps]; exact hasp), hMs,
          hmget i (by rw [halen]; exact hi),
          regsF, if_neg hasp, regsF, if_neg hbsp]

/-- Claim C6: for sketches of equal precision built from arbitrary item
lists (through arbitrary mixers), merging B into A and merging A into B
produce identical dense register arrays once both results are forced
into the dense representation. -/
theorem merge_commutes (p : Nat) (hp4 : 4 ≤ p) (hp18 : p ≤ 18)
    (mixA mixB : Nat → Nat) (itemsA itemsB : List Nat) :
    Except.map (fun s => (forceDense s).M)
      (merge (build p mixA itemsA) (build p mixB itemsB)) =
    Except.map (fun s => (forceDense s).M)
      (merge (build p mixB itemsB) (build p mixA itemsA)) := by
  have hp25 : p ≤ 25 := by omega
  have hA := sketchInv_build p hp25 mixA itemsA
  have hB := sketchInv_build p hp25 mixB itemsB
  rw [merge, if_neg (fun h => h (hA.1.trans hB.1.symm)),
    merge, if_neg (fun h => h (hB.1.trans hA.1.symm))]
  simp only [Except.map]
  congr 1
  obtain ⟨hinvAB, hregAB⟩ := mergeOk_spec hp25 _ _ hA hB
  obtain ⟨hinvBA, hregBA⟩ := mergeOk_spec hp25 _ _ hB hA
  obtain ⟨hlenAB, hgetAB⟩ := forceDense_spec _ hinvAB
  obtain ⟨hlenBA, hgetBA⟩ := forceDense_spec _ hinvBA
  apply List.ext_get
  · rw [hlenAB, hlenBA]
  · intro n h1 h2
    have hn : n < 2^p := by rw [← hlenAB]; exact h1
    have e1 : ∀ (l : List Nat) (h : n < l.length), l.get ⟨n, h⟩ = l.getD n 0 := by
      intro l h
      rw [List.get_eq_getElem, List.getD_eq_getElem?_getD, List.getElem?_eq_getElem h]
      rfl
    rw [e1 _ h1, e1 _ h2, hgetAB n hn, hgetBA n hn, hregAB n hn, hregBA n hn]
    exact Nat.max_comm _ _

/-- Witness for C6 at two concrete single-item sketches of precision 4. -/
theorem merge_commutes_witness :
    Except.map (fun s => (forceDense s).M)
      (merge (build 4 (fun x => x) [1]) (build 4 (fun x => x) [2])) =
    Except.map (fun s => (forceDense s).M)
      (merge (build 4 (fun x => x) [2]) (build 4 (fun x => x) [1])) :=
  merge_commutes 4 (by norm_num) (by norm_num) (fun x => x) (fun x => x) [1] [2]
